import Mathlib

/-!
# Verification of the text-insight pipeline and the line-overlap utility

Shallow embedding of `src/DataScraper.py`, `src/OverlappingLines.py` and the
interface of `src/Searchers.py`.  Markup documents (BeautifulSoup objects) are
modelled as rose trees of tag nodes and text nodes; Python strings are Lean
`String`s; Python `int` counters are `Int`; the numeric values of the
tf-similarity computation are `ℚ`.  External library calls (`sklearn`,
`numpy`, `nltk`, `re`) are embedded by functions that follow their documented
behaviour on the inputs this program feeds them, as noted at each definition.
-/

namespace DataScraper

/-- A node of the parsed markup document: either a text node or a tag with a
name and a list of children.  A BeautifulSoup document is a list of top-level
nodes. -/
inductive Node where
  | text (s : String)
  | tag (name : String) (children : List Node)

/-- A soup is the parsed document: its list of top-level nodes. -/
abbrev Soup := List Node

mutual

/-- Embeds `Tag.get_text()` of BeautifulSoup: concatenation of every text node below
the node, in document order, with no separator. -/
def getText : Node → String
  | .text s => s
  | .tag _ cs => getTextList cs

/-- Text of a list of sibling nodes, in order. -/
def getTextList : List Node → String
  | [] => ""
  | n :: ns => getText n ++ getTextList ns

end

mutual

/-- Embeds `soup()` (= `soup.find_all()`): every tag node of the tree, recursively,
in document (pre-)order.  Text nodes are not returned. -/
def nodeTags : Node → List Node
  | .text _ => []
  | .tag n cs => Node.tag n cs :: nodeTagsList cs

/-- Tag nodes of a list of sibling subtrees, in document order. -/
def nodeTagsList : List Node → List Node
  | [] => []
  | n :: ns => nodeTags n ++ nodeTagsList ns

end

/-- All tags of a soup (`for tag in self.soup()` iterates exactly these). -/
def allTags (soup : Soup) : List Node := nodeTagsList soup

/-- Python `str.lower()` (the inputs of this program are treated as ASCII). -/
def pyLower (s : String) : String :=
  String.mk (s.data.map Char.toLower)

/-- Python `str.split(sep)` for a one-character separator: splits at every
occurrence of the separator, keeping empty pieces (`"".split(" ") == [""]`,
`"a  b".split(" ") == ["a", "", "b"]`).  `cur` holds the characters of the
current piece, in reverse. -/
def splitChGo (sep : Char) (cur : List Char) : List Char → List String
  | [] => [String.mk cur.reverse]
  | c :: cs =>
    if c = sep then String.mk cur.reverse :: splitChGo sep [] cs
    else splitChGo sep (c :: cur) cs

/-- Python `str.split(sep)` for a one-character separator. -/
def splitCh (sep : Char) (s : String) : List String :=
  splitChGo sep [] s.data

/-- Python `\t \n \r \f \v` plus space: the `\s` character class (ASCII). -/
def isPyWs (c : Char) : Bool :=
  c = ' ' || c = '\t' || c = '\n' || c = '\r' || c = '\x0c' || c = '\x0b'

/-- Embeds `re.sub("<class>+", rep, s)`: replace every maximal run of characters
satisfying `p` by `rep`.  `inRun` records that the previous character was part
of a run already replaced. -/
def subRuns1Go (p : Char → Bool) (rep : List Char) : Bool → List Char → List Char
  | _, [] => []
  | inRun, c :: cs =>
    if p c then
      (if inRun then [] else rep) ++ subRuns1Go p rep true cs
    else c :: subRuns1Go p rep false cs

/-- Replace every maximal run of `p`-characters by `rep`. -/
def subRuns1 (p : Char → Bool) (rep : List Char) (l : List Char) : List Char :=
  subRuns1Go p rep false l

/-- Embeds `re.sub` of a character class repeated 2 or more times: replace every maximal run of two or more
`p`-characters by `rep`; a single occurrence is kept unchanged. -/
def subRuns2Go (p : Char → Bool) (rep : List Char) : Bool → List Char → List Char
  | _, [] => []
  | true, c :: cs =>
    if p c then subRuns2Go p rep true cs
    else c :: subRuns2Go p rep false cs
  | false, c :: cs =>
    if p c then
      match cs with
      | [] => [c]
      | d :: ds =>
        if p d then rep ++ subRuns2Go p rep true (d :: ds)
        else c :: subRuns2Go p rep false (d :: ds)
    else c :: subRuns2Go p rep false cs

/-- Replace runs of length at least two of `p`-characters by `rep`. -/
def subRuns2 (p : Char → Bool) (rep : List Char) (l : List Char) : List Char :=
  subRuns2Go p rep false l

/-- Embeds `CosineSummariser.preprocess`:
`re.sub('[^a-zA-Z]', ' ', text)` (each non-letter becomes one space), then
`re.sub(r'\s+', ' ', ...)` (each whitespace run becomes one space). -/
def CosineSummariser.preprocess (text : String) : String :=
  let step1 := text.data.map (fun c => if c.isAlpha then c else ' ')
  String.mk (subRuns1 isPyWs [' '] step1)

/-- Modelled from the library documentation: the default tokenizer of
sklearn's `TfidfVectorizer` (external to this repository) lower-cases its
input and keeps maximal word-character runs of length at least 2
(`token_pattern` `\b\w\w+\b`).  The texts this program feeds it contain only
letters and single spaces (output of `preprocess`), on which this equals
splitting at spaces and dropping tokens shorter than 2 characters. -/
def sklearnTokenize (s : String) : List String :=
  (splitCh ' ' (pyLower s)).filter (fun t => 2 ≤ t.length)

/-- Modelled from the library documentation: the ranking score that
`linear_kernel(tfidf_query, tfidf)` (sklearn, external) assigns to one
document of the corpus.  sklearn builds l2-normalised term-frequency vectors
(`use_idf=False`), so the true score is `(q·d) / (‖q‖‖d‖)` with nonnegative
integer counts.  We embed the square of its numerator/denominator form scaled
by the constant `‖q‖²`: `(q·d)² / ‖d‖²`, a rational number.  Because every
true score is nonnegative and `‖q‖` does not depend on the document, the map
from true scores to embedded scores is strictly monotone, so maxima, argmax
positions and ties are the same for both.  The dot product is computed over
the distinct tokens of the document, which is exact: the corpus vocabulary
contains every token of the document, and tokens outside the document
contribute zero. -/
def simScore (q d : List String) : ℚ :=
  let dot : ℚ := ((d.dedup).map (fun t => ((q.count t : ℚ)) * ((d.count t : ℚ)))).sum
  let normSq : ℚ := ((d.dedup).map (fun t => ((d.count t : ℚ)) * ((d.count t : ℚ)))).sum
  (dot * dot) / normSq

/-- Modelled from the library documentation: `np.argmax` (numpy, external)
returns the index of the maximum value; in case of ties it returns the index
of the first occurrence.  `[]` cannot occur in the program (the empty corpus
raises earlier); numpy would raise there, we return 0. -/
def np_argmax : List ℚ → Nat
  | [] => 0
  | [_] => 0
  | x :: y :: ys =>
    if x < (y :: ys).getD (np_argmax (y :: ys)) 0 then np_argmax (y :: ys) + 1 else 0

/-- Embeds `CosineTag`: the original tag together with its preprocessed text. -/
structure CosineTag where
  original : Node
  preprocessed : String

/-- Placeholder tag used only for out-of-range `getD` access (never reached:
the selected index is always in range). -/
def dfltTag : CosineTag := ⟨Node.text "", ""⟩

/-- The errors raised by `TfidfVectorizer.fit_transform` on this program's
inputs, which the spec's taxonomy calls `EmptyCorpusError`: a `ValueError`
for an empty corpus, and a `ValueError` (empty vocabulary) when no corpus
document yields any token. -/
inductive VectorizerError where
  | emptyCorpus
  | emptyVocabulary

/-- The corpus built by one `summarise` call from a soup: one `CosineTag` per
tag of the soup (`self.tags.append(CosineTag(tag, self.preprocess(tag.get_text().lower())))`). -/
def corpusTags (soup : Soup) : List CosineTag :=
  (allTags soup).map (fun t => ⟨t, CosineSummariser.preprocess (pyLower (getText t))⟩)

/-- The tokens of the query as the vectorizer sees them:
`vectorizer.transform([self.preprocess(self.query)])`. -/
def queryTokens (query : String) : List String :=
  sklearnTokenize (CosineSummariser.preprocess query)

/-- The vocabulary is empty iff no corpus document produces a token;
`fit_transform` raises a `ValueError` in that case. -/
def vocabEmpty (tags : List CosineTag) : Bool :=
  tags.all (fun tg => (sklearnTokenize tg.preprocessed).isEmpty)

/-- The similarity row `linear_kernel(tfidf_query, tfidf).flatten()` (up to
the strictly monotone rescaling documented at `simScore`). -/
def simRow (query : String) (tags : List CosineTag) : List ℚ :=
  tags.map (fun tg => simScore (queryTokens query) (sklearnTokenize tg.preprocessed))

/-- Embeds `CosineSummariser.summarise`.  The instance state is the accumulating
`self.tags` list, passed in and returned explicitly (the source appends to it
before vectorizing, so on error the updated list is still returned, matching
the Python object state after the raised exception). -/
def CosineSummariser.summarise (tags0 : List CosineTag) (soup : Soup)
    (query : String) : List CosineTag × Except VectorizerError Node :=
  let tags := tags0 ++ corpusTags soup
  if tags.isEmpty then (tags, .error .emptyCorpus)
  else if vocabEmpty tags then (tags, .error .emptyVocabulary)
  else
    let sims := simRow query tags
    (tags, .ok (tags.getD (np_argmax sims) dfltTag).original)

/-- The similarity row of a fresh call (`self.tags` initially `[]`). -/
def corpusSims (soup : Soup) (query : String) : List ℚ :=
  simRow query (corpusTags soup)

/-- Predicate: `m` is the first position attaining the maximum of `l`. -/
def IsFirstMax (l : List ℚ) (m : Nat) : Prop :=
  m < l.length ∧ (∀ k, k < l.length → l.getD k 0 ≤ l.getD m 0) ∧
    ∀ k, k < m → l.getD k 0 < l.getD m 0

theorem np_argmax_firstMax : ∀ (l : List ℚ), l ≠ [] → IsFirstMax l (np_argmax l)
  | [], h => absurd rfl h
  | [x], _ => by
    refine ⟨by simp [np_argmax], fun k hk => ?_, fun k hk => ?_⟩
    · simp only [List.length_singleton] at hk
      interval_cases k
      · exact le_refl _
    · simp [np_argmax] at hk
  | x :: y :: ys, _ => by
    obtain ⟨ihLen, ihMax, ihFirst⟩ := np_argmax_firstMax (y :: ys) (by simp)
    by_cases h : x < (y :: ys).getD (np_argmax (y :: ys)) 0
    · have harg : np_argmax (x :: y :: ys) = np_argmax (y :: ys) + 1 := by
        show (if x < (y :: ys).getD (np_argmax (y :: ys)) 0 then np_argmax (y :: ys) + 1
          else 0) = np_argmax (y :: ys) + 1
        rw [if_pos h]
      refine ⟨?_, fun k hk => ?_, fun k hk => ?_⟩
      · simpa [harg] using ihLen
      · rw [harg]
        match k with
        | 0 =>
          simp only [List.getD_cons_zero, List.getD_cons_succ]
          exact le_of_lt h
        | k + 1 =>
          simp only [List.getD_cons_succ]
          exact ihMax k (by simpa using hk)
      · rw [harg] at hk ⊢
        match k with
        | 0 =>
          simp only [List.getD_cons_zero, List.getD_cons_succ]
          exact h
        | k + 1 =>
          simp only [List.getD_cons_succ]
          exact ihFirst k (by omega)
    · have harg : np_argmax (x :: y :: ys) = 0 := by
        show (if x < (y :: ys).getD (np_argmax (y :: ys)) 0 then np_argmax (y :: ys) + 1
          else 0) = 0
        rw [if_neg h]
      refine ⟨by simp [harg], fun k hk => ?_, fun k hk => ?_⟩
      · rw [harg]
        match k with
        | 0 => exact le_refl _
        | k + 1 =>
          simp only [List.getD_cons_succ, List.getD_cons_zero]
          exact le_trans (ihMax k (by simpa using hk)) (not_lt.mp h)
      · omega

theorem isFirstMax_unique {l : List ℚ} {m m' : Nat}
    (h : IsFirstMax l m) (h' : IsFirstMax l m') : m = m' := by
  by_contra hne
  rcases Nat.lt_or_ge m m' with hlt | hge
  · have h1 := h'.2.2 m hlt
    have h2 := h.2.1 m' h'.1
    linarith
  · have hlt : m' < m := by omega
    have h1 := h.2.2 m' hlt
    have h2 := h'.2.1 m h.1
    linarith

theorem isFirstMax_append_self {l : List ℚ} {m : Nat}
    (h : IsFirstMax l m) : IsFirstMax (l ++ l) m := by
  obtain ⟨hm, hmax, hfirst⟩ := h
  have hget : ∀ k, k < l.length → (l ++ l).getD k 0 = l.getD k 0 :=
    fun k hk => List.getD_append l l 0 k hk
  refine ⟨by simp; omega, fun k hk => ?_, fun k hk => ?_⟩
  · rw [hget m hm]
    rcases Nat.lt_or_ge k l.length with hkl | hkl
    · rw [hget k hkl]; exact hmax k hkl
    · have hk2 : k - l.length < l.length := by simp at hk; omega
      rw [List.getD_append_right l l 0 k hkl]
      exact hmax _ hk2
  · rw [hget m hm, hget k (lt_trans hk hm)]
    exact hfirst k hk

theorem np_argmax_append_self {l : List ℚ} (h : l ≠ []) :
    np_argmax (l ++ l) = np_argmax l :=
  isFirstMax_unique (np_argmax_firstMax (l ++ l) (by simp [h]))
    (isFirstMax_append_self (np_argmax_firstMax l h))

/-- Spec-side definition, for the refinement check of claim C7 only.
Follows the spec's words: "one Segment per **leaf markup node containing
text**" — the tag nodes that have no tag children and whose text is
nonempty, in document order. -/
def isTagNode : Node → Bool
  | .text _ => false
  | .tag _ _ => true

/-- Spec-side definition (C7): a leaf markup node has no tag children. -/
def isLeafTag : Node → Bool
  | .text _ => false
  | .tag _ cs => cs.all (fun c => !(isTagNode c))

/-- Spec-side definition (C7): the leaf markup nodes containing text, in
document order. -/
def leafTextTags (soup : Soup) : List Node :=
  (allTags soup).filter (fun t => isLeafTag t && !(getText t == ""))

/-- A nested document: `<html><p>hello</p></html>`.  It has two tags (`html`
and `p`) but only one leaf tag containing text (`p`). -/
def exSoupNested : Soup := [Node.tag "html" [Node.tag "p" [Node.text "hello"]]]

/-- A document whose two segments have identical text, so their similarity
scores tie. -/
def exSoupTie : Soup :=
  [Node.tag "p" [Node.text "hello"], Node.tag "q" [Node.text "hello"]]

/-- A one-segment document. -/
def exSoupOne : Soup := [Node.tag "p" [Node.text "hello"]]

theorem summarise_eq_error_corpus (tags0 : List CosineTag) (soup : Soup)
    (query : String) (h1 : (tags0 ++ corpusTags soup).isEmpty = true) :
    CosineSummariser.summarise tags0 soup query =
      (tags0 ++ corpusTags soup, .error .emptyCorpus) := by
  simp [CosineSummariser.summarise, h1]

theorem summarise_eq_error_vocab (tags0 : List CosineTag) (soup : Soup)
    (query : String) (h1 : (tags0 ++ corpusTags soup).isEmpty = false)
    (h2 : vocabEmpty (tags0 ++ corpusTags soup) = true) :
    CosineSummariser.summarise tags0 soup query =
      (tags0 ++ corpusTags soup, .error .emptyVocabulary) := by
  simp [CosineSummariser.summarise, h1, h2]

theorem summarise_eq_ok (tags0 : List CosineTag) (soup : Soup) (query : String)
    (h1 : (tags0 ++ corpusTags soup).isEmpty = false)
    (h2 : vocabEmpty (tags0 ++ corpusTags soup) = false) :
    CosineSummariser.summarise tags0 soup query =
      (tags0 ++ corpusTags soup,
        Except.ok (((tags0 ++ corpusTags soup).getD
          (np_argmax (simRow query (tags0 ++ corpusTags soup))) dfltTag).original)) := by
  simp [CosineSummariser.summarise, h1, h2]

theorem summarise_fst (tags0 : List CosineTag) (soup : Soup) (query : String) :
    (CosineSummariser.summarise tags0 soup query).1 = tags0 ++ corpusTags soup := by
  by_cases he : (tags0 ++ corpusTags soup).isEmpty = true
  · rw [summarise_eq_error_corpus tags0 soup query he]
  · have he' : (tags0 ++ corpusTags soup).isEmpty = false := by simpa using he
    by_cases hv : vocabEmpty (tags0 ++ corpusTags soup) = true
    · rw [summarise_eq_error_vocab tags0 soup query he' hv]
    · rw [summarise_eq_ok tags0 soup query he' (by simpa using hv)]

/-- C2: for every document with zero extractable text segments (the soup has
no tags, so the corpus built by the loop is empty) and every query, a fresh
cosine summariser's `summarise` raises the empty-corpus error: it returns no
segment, and the error is not handled inside `summarise` (there is no
try/except around `fit_transform`). -/
theorem cosine_empty_corpus_raises (soup : Soup) (query : String)
    (h : allTags soup = []) :
    CosineSummariser.summarise [] soup query = ([], .error .emptyCorpus) := by
  unfold CosineSummariser.summarise
  simp [corpusTags, h]

/-- Witness for C2 at a concrete tagless document. -/
theorem cosine_empty_corpus_raises_witness :
    allTags [Node.text "plain"] = [] ∧
    CosineSummariser.summarise [] [Node.text "plain"] "query" =
      ([], .error .emptyCorpus) :=
  ⟨rfl, cosine_empty_corpus_raises [Node.text "plain"] "query" rfl⟩

/-- C1: if several segments attain the maximal similarity score, the cosine
summariser returns the first segment in document order among them: the chosen
index `m` is a position of the maximum, every earlier position scores
strictly less, and `m` is not after any maximal position (`m ≤ i` for the
first of the two given tied maximal positions).  `summarise` is a pure Lean
function, so the result is identical across repeated runs on identical
input by definitional equality.  The hypothesis `hvocab` states that
vectorization succeeds (some segment yields a token); otherwise the library
raises and no similarity scores exist. -/
theorem cosine_tie_first_in_document_order (soup : Soup) (query : String)
    (i j : ℕ) (hij : i < j) (hj : j < (corpusSims soup query).length)
    (hvocab : vocabEmpty (corpusTags soup) = false)
    (hmaxi : ∀ k, k < (corpusSims soup query).length →
      (corpusSims soup query).getD k 0 ≤ (corpusSims soup query).getD i 0)
    (htie : (corpusSims soup query).getD j 0 = (corpusSims soup query).getD i 0) :
    ∃ m, m ≤ i ∧ IsFirstMax (corpusSims soup query) m ∧
      (CosineSummariser.summarise [] soup query).2 =
        Except.ok ((corpusTags soup).getD m dfltTag).original := by
  have hne : corpusSims soup query ≠ [] := by
    intro hnil
    rw [hnil] at hj
    simp at hj
  have hTne : corpusTags soup ≠ [] := by
    intro hc
    exact hne (by simp [corpusSims, simRow, hc])
  have hTe : (corpusTags soup).isEmpty = false := by
    simpa [List.isEmpty_iff] using hTne
  obtain ⟨hmlen, hmax, hfirst⟩ := np_argmax_firstMax _ hne
  refine ⟨np_argmax (corpusSims soup query), ?_, ⟨hmlen, hmax, hfirst⟩, ?_⟩
  · by_contra hgt
    push_neg at hgt
    have h1 := hfirst i hgt
    have h2 := hmaxi _ hmlen
    linarith
  · unfold CosineSummariser.summarise
    simp only [List.nil_append, hTe, hvocab, Bool.false_eq_true, if_false]
    rfl

/-- Witness for C1: a two-segment document whose segments have identical
text, hence tied similarity scores. -/
theorem cosine_tie_first_in_document_order_witness :
    (0 : ℕ) < 1 ∧ 1 < (corpusSims exSoupTie "hello").length ∧
    vocabEmpty (corpusTags exSoupTie) = false ∧
    (∃ m, m ≤ 0 ∧ IsFirstMax (corpusSims exSoupTie "hello") m ∧
      (CosineSummariser.summarise [] exSoupTie "hello").2 =
        Except.ok ((corpusTags exSoupTie).getD m dfltTag).original) := by
  have hs : corpusSims exSoupTie "hello" =
      [simScore (queryTokens "hello") (sklearnTokenize "hello"),
       simScore (queryTokens "hello") (sklearnTokenize "hello")] := by
    have hpre : CosineSummariser.preprocess (pyLower "hello") = "hello" := by
      decide
    simp [corpusSims, simRow, corpusTags, allTags, nodeTagsList, nodeTags,
      getText, getTextList, exSoupTie, hpre]
  refine ⟨Nat.zero_lt_one, by rw [hs]; decide, by decide, ?_⟩
  refine cosine_tie_first_in_document_order exSoupTie "hello" 0 1
    Nat.zero_lt_one (by rw [hs]; decide) (by decide) ?_ (by rw [hs]; rfl)
  intro k hk
  rw [hs] at hk ⊢
  simp only [List.length_cons, List.length_nil] at hk
  match k with
  | 0 => exact le_refl _
  | 1 => exact le_refl _
  | k + 2 => omega

/-- C3: calling `summarise` a second time on the same summariser instance
(whose `self.tags` now holds the segments appended by the first call) with
the same fresh document and query returns the same segment: the duplicated
corpus has a duplicated similarity row, and `np.argmax` picks the same first
maximal position inside the first copy. -/
theorem cosine_second_call_same_result (soup : Soup) (query : String)
    (t1 : List CosineTag) (r1 : Node)
    (h : CosineSummariser.summarise [] soup query = (t1, Except.ok r1)) :
    ∃ t2, CosineSummariser.summarise t1 soup query = (t2, Except.ok r1) := by
  by_cases he : ([] ++ corpusTags soup).isEmpty = true
  · rw [summarise_eq_error_corpus [] soup query he] at h
    simp [Prod.ext_iff] at h
  · have he' : ([] ++ corpusTags soup).isEmpty = false := by simpa using he
    by_cases hv : vocabEmpty ([] ++ corpusTags soup) = true
    · rw [summarise_eq_error_vocab [] soup query he' hv] at h
      simp [Prod.ext_iff] at h
    · have hv' : vocabEmpty ([] ++ corpusTags soup) = false := by simpa using hv
      rw [summarise_eq_ok [] soup query he' hv'] at h
      simp only [List.nil_append, Prod.mk.injEq, Except.ok.injEq] at h
      obtain ⟨ht, hr⟩ := h
      have hTne : corpusTags soup ≠ [] := by
        intro h0
        rw [h0] at he
        simp at he
      have hsne : simRow query (corpusTags soup) ≠ [] := by
        simp [simRow, hTne]
      have hmlen : np_argmax (simRow query (corpusTags soup)) <
          (corpusTags soup).length := by
        have hfm := (np_argmax_firstMax _ hsne).1
        simpa [simRow] using hfm
      have h2e : (t1 ++ corpusTags soup).isEmpty = false := by
        rw [← ht]
        simp [List.isEmpty_iff, hTne]
      have h2v : vocabEmpty (t1 ++ corpusTags soup) = false := by
        rw [← ht]
        unfold vocabEmpty at hv' ⊢
        rw [List.all_append]
        simp only [List.nil_append] at hv'
        rw [hv']
        simp
      refine ⟨t1 ++ corpusTags soup, ?_⟩
      rw [summarise_eq_ok t1 soup query h2e h2v, ← ht]
      have hrow : simRow query (corpusTags soup ++ corpusTags soup) =
          simRow query (corpusTags soup) ++ simRow query (corpusTags soup) := by
        simp [simRow]
      rw [hrow, np_argmax_append_self hsne,
        List.getD_append _ _ dfltTag _ hmlen, hr]

/-- Witness for C3 at a concrete one-segment document. -/
theorem cosine_second_call_same_result_witness :
    ∃ t2, CosineSummariser.summarise (corpusTags exSoupOne) exSoupOne "hello" =
      (t2, Except.ok (Node.tag "p" [Node.text "hello"])) := by
  refine cosine_second_call_same_result exSoupOne "hello" (corpusTags exSoupOne)
    (Node.tag "p" [Node.text "hello"]) ?_
  rw [summarise_eq_ok [] exSoupOne "hello" (by decide) (by decide)]
  rfl

/-- C7 counterexample: on `<html><p>hello</p></html>` the corpus built by
`summarise` has one entry per tag (two: `html` and `p`), not one entry per
leaf markup node containing text (one: `p`), so the claimed correspondence
fails. -/
theorem corpus_not_one_per_leaf_counterexample :
    (CosineSummariser.summarise [] exSoupNested "hello").1.length = 2 ∧
    (leafTextTags exSoupNested).length = 1 ∧
    (CosineSummariser.summarise [] exSoupNested "hello").1.length ≠
      (leafTextTags exSoupNested).length := by
  refine ⟨?_, ?_, ?_⟩ <;> decide

/-- C7 amended: segment extraction produces exactly one segment per markup
tag node of the document — leaf or not, with or without text (`soup()`
iterates `find_all()`), in document (pre-)order; the corpus therefore has one
entry per tag node, holding the tag and its lower-cased preprocessed text. -/
theorem corpus_one_entry_per_tag (soup : Soup) (query : String) :
    (CosineSummariser.summarise [] soup query).1 =
      (allTags soup).map
        (fun t => ⟨t, CosineSummariser.preprocess (pyLower (getText t))⟩) ∧
    ((CosineSummariser.summarise [] soup query).1.map fun tg => tg.original) =
      allTags soup := by
  have h1 : (CosineSummariser.summarise [] soup query).1 = corpusTags soup := by
    rw [summarise_fst [] soup query, List.nil_append]
  refine ⟨h1, ?_⟩
  rw [h1]
  unfold corpusTags
  rw [List.map_map]
  exact List.map_id' _

/-! ## The keyword window summariser (`SentenceSummariser`) -/

/-- Embeds `soup.text` of BeautifulSoup: the concatenated text of the document. -/
def soupText (soup : Soup) : String := getTextList soup

/-- Embeds `SentenceSummariser.get_as_tokens`:
`re.sub("[^0-9a-zA-Z]+", " ", text).split(" ")` — replace every maximal run
of non-alphanumeric characters by one space, then split at single spaces
(keeping empty pieces, as Python `str.split(" ")` does). -/
def SentenceSummariser.get_as_tokens (text : String) : List String :=
  splitCh ' ' (String.mk (subRuns1 (fun c => !(c.isAlpha || c.isDigit)) [' '] text.data))

/-- The text preprocessing of `SentenceSummariser.summarise`:
`re.sub` of tab/newline-class runs to a newline, then of runs of two or
more spaces to a newline, then removal of runs of two or more periods. -/
def SentenceSummariser.cleanText (s : String) : String :=
  let s1 := subRuns1
    (fun c => c = '\t' || c = '\n' || c = '\r' || c = '\x0c' || c = '\x0b')
    ['\n'] s.data
  let s2 := subRuns2 (fun c => c = ' ') ['\n'] s1
  String.mk (subRuns2 (fun c => c = '.') [] s2)

/-- Embeds `SentenceSummariser.add_retroactively`: prepend an elision marker and the
last `count` tokens before position `i` to the summary
(`self.summary += "\n[...]" + " ".join([tokens[i] for i in range(max(i - count, 0), i)])`). -/
def add_retroactively (count : Int) (summary : String) (tokens : List String)
    (i : Nat) : String :=
  let start := (max ((i : Int) - count) 0).toNat
  summary ++ "\n[...]" ++ String.intercalate " " ((tokens.drop start).take (i - start))

/-- One iteration of the inner loop of `SentenceSummariser.summarise` over
`enumerate(words)`: `i`/`word` are the loop variables, `pos`
(`remaining_trailing_words`) and the summary are the mutable state, `words`
is the token list of the current sentence (used by `add_retroactively`),
`pre`/`t` are `self.pre`/`self.pos`. -/
def sentStep (qts : List String) (pre t : Int) (words : List String) (i : Nat)
    (word : String) (pos : Int) (s : String) : Int × String :=
  if word ∈ qts then
    if pos = 0 then (t, add_retroactively pre s words i ++ " " ++ word)
    else ((pos + t) * 2, s ++ " " ++ word)
  else if 0 < pos then (pos - 1, s ++ " " ++ word)
  else (pos, s)

/-- The inner loop of `SentenceSummariser.summarise` from index `i` over the
remaining words `l` (so `enumerate(words)` is `scanFrom ... 0 words`). -/
def scanFrom (qts : List String) (pre t : Int) (words : List String) :
    Nat → List String → Int × String → Int × String
  | _, [], acc => acc
  | i, w :: ws, (pos, s) =>
    scanFrom qts pre t words (i + 1) ws (sentStep qts pre t words i w pos s)

/-- Processing of one sentence: `pos = 0` at sentence start, the summary is
carried over. -/
def summariseSentence (qts : List String) (pre t : Int) (s0 : String)
    (words : List String) : String :=
  (scanFrom qts pre t words 0 words (0, s0)).2

/-- Embeds `SentenceSummariser.summarise`.  The sentence and word tokenizers
(`nltk.sent_tokenize` / `nltk.word_tokenize`, external to this repository)
are passed as function parameters, as the source itself does for the
`getter` of the scraper; the accumulated `self.summary` buffer is the
explicit `s0` (empty for a fresh instance). -/
def SentenceSummariser.summarise (sentTok wordTok : String → List String)
    (pre t : Int) (s0 : String) (soup : Soup) (query : String) : String :=
  let text := SentenceSummariser.cleanText (pyLower (soupText soup))
  let qts := SentenceSummariser.get_as_tokens query
  (sentTok text).foldl (fun s sent => summariseSentence qts pre t s (wordTok sent)) s0

/-- The text appended for a retained run of tokens: each token is appended as
`" " + word`. -/
def retainedRun : List String → String
  | [] => ""
  | w :: ws => " " ++ w ++ retainedRun ws

theorem retainedRun_append :
    ∀ (a b : List String), retainedRun (a ++ b) = retainedRun a ++ retainedRun b
  | [], b => by
    simp only [List.nil_append, retainedRun, String.empty_append]
  | w :: a, b => by
    show " " ++ w ++ retainedRun (a ++ b) = " " ++ w ++ retainedRun a ++ retainedRun b
    rw [retainedRun_append a b]
    exact (String.append_assoc _ _ _).symm

theorem scanFrom_append (qts : List String) (pre t : Int) (W : List String) :
    ∀ (xs : List String) (ys : List String) (i : Nat) (acc : Int × String),
    scanFrom qts pre t W i (xs ++ ys) acc =
      scanFrom qts pre t W (i + xs.length) ys (scanFrom qts pre t W i xs acc)
  | [], ys, i, acc => by simp [scanFrom]
  | x :: xs, ys, i, (pos, s) => by
    show scanFrom qts pre t W (i + 1) (xs ++ ys) (sentStep qts pre t W i x pos s) =
      scanFrom qts pre t W (i + (x :: xs).length) ys
        (scanFrom qts pre t W (i + 1) xs (sentStep qts pre t W i x pos s))
    rw [scanFrom_append qts pre t W xs ys (i + 1) _]
    have hlen : i + 1 + xs.length = i + (x :: xs).length := by
      simp [List.length_cons]
      omega
    rw [hlen]

theorem sentStep_extends (qts : List String) (pre t : Int) (W : List String)
    (i : Nat) (w : String) (pos : Int) (s : String) :
    ∃ x, (sentStep qts pre t W i w pos s).2 = s ++ x := by
  unfold sentStep add_retroactively
  by_cases hw : w ∈ qts
  · by_cases hp : pos = 0
    · rw [if_pos hw, if_pos hp]
      exact ⟨"\n[...]" ++ String.intercalate " "
        ((W.drop (max ((i : Int) - pre) 0).toNat).take
          (i - (max ((i : Int) - pre) 0).toNat)) ++ (" " ++ w),
        by simp [String.append_assoc]⟩
    · rw [if_pos hw, if_neg hp]
      exact ⟨" " ++ w, by simp [String.append_assoc]⟩
  · by_cases hp : 0 < pos
    · rw [if_neg hw, if_pos hp]
      exact ⟨" " ++ w, by simp [String.append_assoc]⟩
    · rw [if_neg hw, if_neg hp]
      exact ⟨"", by simp [String.append_empty]⟩

theorem scanFrom_extends (qts : List String) (pre t : Int) (W : List String) :
    ∀ (l : List String) (i : Nat) (pos : Int) (s : String),
    ∃ tail, (scanFrom qts pre t W i l (pos, s)).2 = s ++ tail
  | [], _, _, s => ⟨"", by simp [scanFrom, String.append_empty]⟩
  | w :: ws, i, pos, s => by
    obtain ⟨x, hx⟩ := sentStep_extends qts pre t W i w pos s
    rcases hstep : sentStep qts pre t W i w pos s with ⟨p2, s2⟩
    have hx2 : s2 = s ++ x := by
      rw [hstep] at hx
      exact hx
    obtain ⟨tail, htail⟩ := scanFrom_extends qts pre t W ws (i + 1) p2 s2
    refine ⟨x ++ tail, ?_⟩
    have hmain : (scanFrom qts pre t W i (w :: ws) (pos, s)).2 = s2 ++ tail := by
      simp only [scanFrom, hstep, htail]
    rw [hmain, hx2, String.append_assoc]

theorem sentStep_pos_nonneg (qts : List String) (pre t : Int) (W : List String)
    (i : Nat) (w : String) (pos : Int) (s : String) (ht : 0 ≤ t)
    (hp : 0 ≤ pos) : 0 ≤ (sentStep qts pre t W i w pos s).1 := by
  unfold sentStep
  by_cases hw : w ∈ qts
  · by_cases h0 : pos = 0
    · rw [if_pos hw, if_pos h0]
      exact ht
    · rw [if_pos hw, if_neg h0]
      simp only []
      omega
  · by_cases hgt : 0 < pos
    · rw [if_neg hw, if_pos hgt]
      simp only []
      omega
    · rw [if_neg hw, if_neg hgt]
      exact hp

theorem scanFrom_pos_nonneg (qts : List String) (pre t : Int)
    (W : List String) (ht : 0 ≤ t) :
    ∀ (l : List String) (i : Nat) (pos : Int) (s : String), 0 ≤ pos →
    0 ≤ (scanFrom qts pre t W i l (pos, s)).1
  | [], _, _, _, hp => hp
  | w :: ws, i, pos, s, hp => by
    rcases hstep : sentStep qts pre t W i w pos s with ⟨p2, s2⟩
    have h2 : 0 ≤ p2 := by
      have hn := sentStep_pos_nonneg qts pre t W i w pos s ht hp
      rw [hstep] at hn
      exact hn
    simp only [scanFrom, hstep]
    exact scanFrom_pos_nonneg qts pre t W ht ws (i + 1) p2 s2 h2

theorem scanFrom_run (qts : List String) (pre t : Int) (W : List String)
    (ht : 0 ≤ t) :
    ∀ (M : List String) (i : Nat) (pos : Int) (s : String),
      (M.length : Int) < pos →
      ∃ p2, scanFrom qts pre t W i M (pos, s) = (p2, s ++ retainedRun M) ∧
        pos - M.length ≤ p2
  | [], i, pos, s, h =>
    ⟨pos, by simp [scanFrom, retainedRun, String.append_empty], by simp⟩
  | w :: ws, i, pos, s, h => by
    have hlen : ((w :: ws).length : Int) = (ws.length : Int) + 1 := by
      simp [List.length_cons]
    rw [hlen] at h
    have hp0 : 0 < pos := by
      have hnn : (0 : Int) ≤ (ws.length : Int) := Int.ofNat_nonneg _
      omega
    by_cases hw : w ∈ qts
    · have hstep : sentStep qts pre t W i w pos s =
          ((pos + t) * 2, s ++ " " ++ w) := by
        unfold sentStep
        rw [if_pos hw, if_neg (by omega : ¬ pos = 0)]
      have hrec : ((ws.length : Int)) < (pos + t) * 2 := by omega
      obtain ⟨p2, heq, hge⟩ :=
        scanFrom_run qts pre t W ht ws (i + 1) ((pos + t) * 2)
          (s ++ " " ++ w) hrec
      refine ⟨p2, ?_, by omega⟩
      have hgoal : scanFrom qts pre t W i (w :: ws) (pos, s) =
          scanFrom qts pre t W (i + 1) ws ((pos + t) * 2, s ++ " " ++ w) := by
        simp only [scanFrom, hstep]
      rw [hgoal, heq]
      have hstr : s ++ " " ++ w ++ retainedRun ws = s ++ retainedRun (w :: ws) := by
        show _ = s ++ (" " ++ w ++ retainedRun ws)
        simp only [String.append_assoc]
      rw [hstr]
    · have hstep : sentStep qts pre t W i w pos s =
          (pos - 1, s ++ " " ++ w) := by
        unfold sentStep
        rw [if_neg hw, if_pos hp0]
      have hrec : ((ws.length : Int)) < pos - 1 := by omega
      obtain ⟨p2, heq, hge⟩ :=
        scanFrom_run qts pre t W ht ws (i + 1) (pos - 1) (s ++ " " ++ w) hrec
      refine ⟨p2, ?_, by omega⟩
      have hgoal : scanFrom qts pre t W i (w :: ws) (pos, s) =
          scanFrom qts pre t W (i + 1) ws (pos - 1, s ++ " " ++ w) := by
        simp only [scanFrom, hstep]
      rw [hgoal, heq]
      have hstr : s ++ " " ++ w ++ retainedRun ws = s ++ retainedRun (w :: ws) := by
        show _ = s ++ (" " ++ w ++ retainedRun ws)
        simp only [String.append_assoc]
      rw [hstr]

/-- C4: in the per-sentence scan, a query-term token encountered while
`remaining_trailing_words` (`pos`) is strictly positive updates the counter
to exactly `(pos + trailing_context_words) * 2`, a strict increase (for the
non-negative window configurations the spec defines behaviour for;
the default is 5). -/
theorem keyword_escalation (qts : List String) (pre t : Int)
    (words : List String) (i : Nat) (word : String) (pos : Int) (s : String)
    (hw : word ∈ qts) (hpos : 0 < pos) (ht : 0 ≤ t) :
    (sentStep qts pre t words i word pos s).1 = (pos + t) * 2 ∧
      pos < (pos + t) * 2 := by
  unfold sentStep
  rw [if_pos hw, if_neg (by omega : ¬ pos = 0)]
  exact ⟨rfl, by omega⟩

/-- C5: if a sentence contains query-term occurrences at positions `i` and
`i + d` with `1 ≤ d ≤ trailing_context_words`, then the scan appends the
tokens at positions `i` through `i + d` consecutively: the produced summary
contains the contiguous block of `" " ++ token` pieces — no token between
the two occurrences is skipped. -/
theorem keyword_window_continuous_run (qts : List String) (pre t : Int)
    (s0 : String) (words : List String) (i d : Nat) (wi wd : String)
    (hgi : words.get? i = some wi) (hgd : words.get? (i + d) = some wd)
    (hwi : wi ∈ qts) (hwd : wd ∈ qts) (hd1 : 1 ≤ d) (hdt : (d : Int) ≤ t) :
    ∃ u v, summariseSentence qts pre t s0 words =
      u ++ (retainedRun ((words.drop i).take (d + 1)) ++ v) := by
  have ht0 : 0 ≤ t := le_trans (Int.ofNat_nonneg d) hdt
  obtain ⟨hi_lt, hi_get⟩ := List.get?_eq_some.mp hgi
  obtain ⟨hid_lt, hid_get⟩ := List.get?_eq_some.mp hgd
  have hwi_elem : words[i] = wi := by simpa using hi_get
  have hwd_elem : words[i + d] = wd := by simpa using hid_get
  have hdropi : words.drop i = wi :: words.drop (i + 1) := by
    rw [List.drop_eq_getElem_cons hi_lt, hwi_elem]
  obtain ⟨A, M, C2, hsplit, hAlen, hMlen⟩ :
      ∃ A M C2, words = A ++ (wi :: (M ++ (wd :: C2))) ∧
        A.length = i ∧ M.length = d - 1 := by
    refine ⟨words.take i, (words.drop (i + 1)).take (d - 1),
      words.drop (i + d + 1), ?_, ?_, ?_⟩
    · conv_lhs => rw [← List.take_append_drop i words]
      congr 1
      rw [hdropi]
      congr 1
      conv_lhs => rw [← List.take_append_drop (d - 1) (words.drop (i + 1))]
      congr 1
      rw [List.drop_drop]
      have hidx : i + 1 + (d - 1) = i + d := by omega
      rw [hidx, List.drop_eq_getElem_cons hid_lt, hwd_elem]
    · rw [List.length_take]
      exact Nat.min_eq_left (le_of_lt hi_lt)
    · rw [List.length_take, List.length_drop]
      omega
  have hdropA : words.drop i = wi :: (M ++ (wd :: C2)) := by
    conv_lhs => rw [hsplit, ← hAlen]
    exact List.drop_left _ _
  have htake : (words.drop i).take (d + 1) = wi :: (M ++ [wd]) := by
    rw [hdropA, List.take_succ_cons]
    congr 1
    have hd' : d = M.length + 1 := by omega
    rw [hd', List.take_append]
    congr 1
  unfold summariseSentence
  rw [htake, hsplit]
  rw [scanFrom_append qts pre t _ A (wi :: (M ++ (wd :: C2))) 0 (0, s0)]
  rcases hacc1 : scanFrom qts pre t (A ++ (wi :: (M ++ (wd :: C2)))) 0 A (0, s0)
    with ⟨p1, s1⟩
  have hp1 : 0 ≤ p1 := by
    have hn := scanFrom_pos_nonneg qts pre t (A ++ (wi :: (M ++ (wd :: C2)))) ht0
      A 0 0 s0 (le_refl 0)
    rw [hacc1] at hn
    exact hn
  have hstep1 : scanFrom qts pre t (A ++ (wi :: (M ++ (wd :: C2))))
      (0 + A.length) (wi :: (M ++ (wd :: C2))) (p1, s1) =
      scanFrom qts pre t (A ++ (wi :: (M ++ (wd :: C2)))) (0 + A.length + 1)
        (M ++ (wd :: C2))
        (sentStep qts pre t (A ++ (wi :: (M ++ (wd :: C2)))) (0 + A.length)
          wi p1 s1) := by
    simp only [scanFrom]
  rw [hstep1]
  obtain ⟨u1, p2, hstep2, hp2⟩ :
      ∃ u1 p2, sentStep qts pre t (A ++ (wi :: (M ++ (wd :: C2))))
        (0 + A.length) wi p1 s1 = (p2, u1 ++ (" " ++ wi)) ∧ t ≤ p2 := by
    by_cases h0 : p1 = 0
    · refine ⟨add_retroactively pre s1 (A ++ (wi :: (M ++ (wd :: C2))))
        (0 + A.length), t, ?_, le_refl t⟩
      unfold sentStep
      rw [if_pos hwi, if_pos h0, String.append_assoc]
    · refine ⟨s1, (p1 + t) * 2, ?_, by omega⟩
      unfold sentStep
      rw [if_pos hwi, if_neg h0, String.append_assoc]
  rw [hstep2]
  rw [scanFrom_append qts pre t _ M (wd :: C2) (0 + A.length + 1)
    (p2, u1 ++ (" " ++ wi))]
  have hMrun : ((M.length : Int)) < p2 := by
    rw [hMlen]
    omega
  obtain ⟨p3, hrun, hp3ge⟩ := scanFrom_run qts pre t
    (A ++ (wi :: (M ++ (wd :: C2)))) ht0 M (0 + A.length + 1) p2
    (u1 ++ (" " ++ wi)) hMrun
  rw [hrun]
  have hp3 : 1 ≤ p3 := by
    rw [hMlen] at hp3ge
    omega
  have hstep3 : scanFrom qts pre t (A ++ (wi :: (M ++ (wd :: C2))))
      (0 + A.length + 1 + M.length) (wd :: C2)
      (p3, u1 ++ (" " ++ wi) ++ retainedRun M) =
      scanFrom qts pre t (A ++ (wi :: (M ++ (wd :: C2))))
        (0 + A.length + 1 + M.length + 1) C2
        (sentStep qts pre t (A ++ (wi :: (M ++ (wd :: C2))))
          (0 + A.length + 1 + M.length) wd p3
          (u1 ++ (" " ++ wi) ++ retainedRun M)) := by
    simp only [scanFrom]
  rw [hstep3]
  have hstep4 : sentStep qts pre t (A ++ (wi :: (M ++ (wd :: C2))))
      (0 + A.length + 1 + M.length) wd p3
      (u1 ++ (" " ++ wi) ++ retainedRun M) =
      ((p3 + t) * 2, u1 ++ (" " ++ wi) ++ retainedRun M ++ " " ++ wd) := by
    unfold sentStep
    rw [if_pos hwd, if_neg (by omega : ¬ p3 = 0)]
  rw [hstep4]
  obtain ⟨tail, htail⟩ := scanFrom_extends qts pre t
    (A ++ (wi :: (M ++ (wd :: C2)))) C2 (0 + A.length + 1 + M.length + 1)
    ((p3 + t) * 2) (u1 ++ (" " ++ wi) ++ retainedRun M ++ " " ++ wd)
  rw [htail]
  refine ⟨u1, tail, ?_⟩
  have hrr : retainedRun (wi :: (M ++ [wd])) =
      " " ++ wi ++ (retainedRun M ++ (" " ++ wd ++ "")) := by
    show " " ++ wi ++ retainedRun (M ++ [wd]) = _
    rw [retainedRun_append]
    rfl
  rw [hrr]
  simp only [String.append_assoc, String.append_empty]

/-- Witness for C5: the sentence `cat x cat` with query term `cat`, distance
2 within the default trailing window of 5. -/
theorem keyword_window_continuous_run_witness :
    (["cat", "x", "cat"].get? 0 = some "cat") ∧
    (["cat", "x", "cat"].get? (0 + 2) = some "cat") ∧
    ∃ u v, summariseSentence ["cat"] 5 5 "" ["cat", "x", "cat"] =
      u ++ (retainedRun (((["cat", "x", "cat"] : List String).drop 0).take (2 + 1)) ++ v) :=
  ⟨rfl, rfl,
    keyword_window_continuous_run ["cat"] 5 5 "" ["cat", "x", "cat"] 0 2
      "cat" "cat" rfl rfl (by decide) (by decide) (by decide) (by decide)⟩

theorem scanFrom_no_match (qts : List String) (pre t : Int) (W : List String) :
    ∀ (l : List String) (i : Nat) (s : String), (∀ w ∈ l, w ∉ qts) →
    scanFrom qts pre t W i l (0, s) = (0, s)
  | [], _, _, _ => rfl
  | w :: ws, i, s, h => by
    have hw : w ∉ qts := h w (List.mem_cons_self w ws)
    have hstep : sentStep qts pre t W i w 0 s = (0, s) := by
      unfold sentStep
      rw [if_neg hw, if_neg (by omega : ¬ (0 : Int) < 0)]
    simp only [scanFrom, hstep]
    exact scanFrom_no_match qts pre t W ws (i + 1) s
      (fun x hx => h x (List.mem_cons_of_mem w hx))

theorem foldl_no_match (qts : List String) (pre t : Int)
    (wordTok : String → List String) :
    ∀ (sentences : List String) (s0 : String),
    (∀ sent ∈ sentences, ∀ w ∈ wordTok sent, w ∉ qts) →
    sentences.foldl (fun s sent => summariseSentence qts pre t s (wordTok sent))
      s0 = s0
  | [], _, _ => rfl
  | sent :: rest, s0, h => by
    have hone : summariseSentence qts pre t s0 (wordTok sent) = s0 := by
      unfold summariseSentence
      rw [scanFrom_no_match qts pre t (wordTok sent) (wordTok sent) 0 s0
        (h sent (List.mem_cons_self sent rest))]
    simp only [List.foldl_cons, hone]
    exact foldl_no_match qts pre t wordTok rest s0
      (fun x hx => h x (List.mem_cons_of_mem sent hx))

/-- C8: the keyword window summariser has no error path: it is a total
function, and with an empty query (whose token list is `[""]`, which never
matches since word tokens are non-empty), or with a query none of whose
tokens occurs as a word token of the document, `summarise` returns the
summary buffer `s0` unchanged — the empty string for a fresh instance. -/
theorem keyword_no_match_returns_buffer
    (sentTok wordTok : String → List String) (pre t : Int) (s0 : String)
    (soup : Soup) (query : String)
    (h : (query = "" ∧ ∀ sent w, w ∈ wordTok sent → w ≠ "") ∨
      (∀ sent ∈ sentTok (SentenceSummariser.cleanText (pyLower (soupText soup))),
        ∀ w ∈ wordTok sent, w ∉ SentenceSummariser.get_as_tokens query)) :
    SentenceSummariser.summarise sentTok wordTok pre t s0 soup query = s0 := by
  have hall : ∀ sent ∈ sentTok
      (SentenceSummariser.cleanText (pyLower (soupText soup))),
      ∀ w ∈ wordTok sent, w ∉ SentenceSummariser.get_as_tokens query := by
    rcases h with ⟨hq, hne⟩ | hnm
    · intro sent hsent w hw hmem
      rw [hq] at hmem
      have hq0 : SentenceSummariser.get_as_tokens "" = [""] := rfl
      rw [hq0] at hmem
      exact hne sent w hw (by simpa using hmem)
    · exact hnm
  exact foldl_no_match (SentenceSummariser.get_as_tokens query) pre t wordTok
    (sentTok (SentenceSummariser.cleanText (pyLower (soupText soup)))) s0 hall

/-- Witness for C8: one-sentence identity tokenizers, a document `abc` and a
query `zzz` that matches nothing. -/
theorem keyword_no_match_returns_buffer_witness :
    (∀ sent ∈ (fun s : String => [s])
        (SentenceSummariser.cleanText (pyLower (soupText [Node.text "abc"]))),
      ∀ w ∈ (fun s : String => [s]) sent,
        w ∉ SentenceSummariser.get_as_tokens "zzz") ∧
    SentenceSummariser.summarise (fun s => [s]) (fun s => [s]) 5 5 ""
      [Node.text "abc"] "zzz" = "" :=
  ⟨by decide,
    keyword_no_match_returns_buffer (fun s => [s]) (fun s => [s]) 5 5 ""
      [Node.text "abc"] "zzz" (Or.inr (by decide))⟩

/-- Witness for C4 at a concrete in-window second match. -/
theorem keyword_escalation_witness :
    "cat" ∈ ["cat"] ∧ (0 : Int) < 3 ∧ (0 : Int) ≤ 5 ∧
    (sentStep ["cat"] 5 5 ["x", "cat"] 1 "cat" 3 " x").1 = (3 + 5) * 2 ∧
      (3 : Int) < (3 + 5) * 2 :=
  ⟨by decide, by decide, by decide,
    keyword_escalation ["cat"] 5 5 ["x", "cat"] 1 "cat" 3 " x"
      (by decide) (by decide) (by decide)⟩

/-! ## The orchestrator (`TextInsight`) -/

/-- Embeds `Summary`: the result unit, the summary of a page together with its URL.
The summary type is a parameter since the summarisation strategies return
different types (a tag for the cosine strategy, a string for the keyword
strategy). -/
structure Summary (α : Type) where
  summary : α
  url : String

/-- Embeds `TextInsight.get`: lower-case the query, run the search capability
(`self.searcher.search(query)` populates `self.searcher.urls`, modelled as
the returned list), then for each URL in order fetch a soup
(`scraper.get_soup`) and call `self.summariser.summarise(soup, query)`,
appending `Summary(summary, url)`.  The collaborating capabilities are the
function parameters, mirroring the constructor injection of the source.  The
orchestrator holds ONE summariser instance across the whole loop, and both
repository strategies mutate instance state on every call
(`CosineSummariser.self.tags`, `SentenceSummariser.self.summary`), so the
strategy is a state-threading function `σ → Soup → String → σ × α` and the
instance state `st0` it starts from is threaded through the iterations (the
source's single `self.summariser.summarise(soup, query)` call per iteration
is the one application of `summarise`; its two components are written as the
two projections). -/
def TextInsight.get {σ α : Type} (search : String → List String)
    (get_soup : String → Soup) (summarise : σ → Soup → String → σ × α)
    (st0 : σ) (query : String) : List (Summary α) :=
  let q := pyLower query
  let urls := search q
  (urls.foldl (fun acc url =>
    ((summarise acc.1 (get_soup url) q).1,
      acc.2 ++ [⟨(summarise acc.1 (get_soup url) q).2, url⟩])) (st0, [])).2

/-- Reference sequence for the orchestrator theorem: the summaries produced
by applying the strategy to each document in order, threading the summariser
instance state left by the preceding documents. -/
def summariseThread {σ α : Type} (summarise : σ → Soup → String → σ × α)
    (q : String) : σ → List Soup → List α
  | _, [] => []
  | st, soup :: rest =>
    (summarise st soup q).2 ::
      summariseThread summarise q (summarise st soup q).1 rest

theorem summariseThread_length {σ α : Type}
    (summarise : σ → Soup → String → σ × α) (q : String) :
    ∀ (soups : List Soup) (st : σ),
    (summariseThread summarise q st soups).length = soups.length
  | [], _ => rfl
  | _ :: rest, st => by
    simp only [summariseThread, List.length_cons]
    rw [summariseThread_length summarise q rest _]

theorem textInsight_loop_spec {σ α : Type} (get_soup : String → Soup)
    (summarise : σ → Soup → String → σ × α) (q : String) :
    ∀ (urls : List String) (st : σ) (acc : List (Summary α)),
    (urls.foldl (fun acc url =>
        ((summarise acc.1 (get_soup url) q).1,
          acc.2 ++ [⟨(summarise acc.1 (get_soup url) q).2, url⟩]))
      (st, acc)).2 =
      acc ++ List.zipWith (fun r url => Summary.mk r url)
        (summariseThread summarise q st (urls.map get_soup)) urls
  | [], st, acc => by simp [summariseThread]
  | url :: rest, st, acc => by
    simp only [List.foldl_cons, List.map_cons, summariseThread,
      List.zipWith_cons_cons]
    rw [textInsight_loop_spec get_soup summarise q rest _ _]
    simp

theorem zip_thread_map_url {σ α : Type} (get_soup : String → Soup)
    (summarise : σ → Soup → String → σ × α) (q : String) :
    ∀ (urls : List String) (st : σ),
    (List.zipWith (fun r url => Summary.mk r url)
      (summariseThread summarise q st (urls.map get_soup)) urls).map
        (fun r => r.url) = urls
  | [], _ => rfl
  | url :: rest, st => by
    simp only [List.map_cons, summariseThread, List.zipWith_cons_cons,
      List.map_cons]
    rw [zip_thread_map_url get_soup summarise q rest _]

theorem zip_thread_map_summary {σ α : Type} (get_soup : String → Soup)
    (summarise : σ → Soup → String → σ × α) (q : String) :
    ∀ (urls : List String) (st : σ),
    (List.zipWith (fun r url => Summary.mk r url)
      (summariseThread summarise q st (urls.map get_soup)) urls).map
        (fun r => r.summary) =
      summariseThread summarise q st (urls.map get_soup)
  | [], _ => rfl
  | url :: rest, st => by
    simp only [List.map_cons, summariseThread, List.zipWith_cons_cons,
      List.map_cons]
    rw [zip_thread_map_summary get_soup summarise q rest _]

/-- Search capability of the C6 counterexample: two URLs. -/
def exSearch : String → List String := fun _ => ["u1", "u2"]

/-- Fetch capability of the C6 counterexample: the first page contains the
query term, the second page does not. -/
def exGetSoup : String → Soup := fun url =>
  if url = "u1" then [Node.text "cat"] else [Node.text "dog"]

/-- One-sentence tokenizer used in the C6 counterexample. -/
def exSentTok : String → List String := fun s => [s]

/-- Word tokenizer used in the C6 counterexample: split at spaces. -/
def exWordTok : String → List String := fun s => splitCh ' ' s

/-- The keyword strategy as the orchestrator calls it: one shared instance
whose state is the accumulated `self.summary` buffer; the call returns the
buffer, which is also the new state (`return self.summary`). -/
def exKeywordStep : String → Soup → String → String × String := fun st soup q =>
  (SentenceSummariser.summarise exSentTok exWordTok 5 5 st soup q,
   SentenceSummariser.summarise exSentTok exWordTok 5 5 st soup q)

/-- C6 counterexample: with the keyword strategy shared across the loop (one
summariser instance, as in the source and its test), the entry for the second
URL carries the first document's summary — not the summarisation of the
document fetched from that URL, which is empty because the second page
contains no query term. -/
theorem orchestrator_summary_not_per_document :
    (TextInsight.get exSearch exGetSoup exKeywordStep "" "cat").map
        (fun r => r.url) = ["u1", "u2"] ∧
    ((TextInsight.get exSearch exGetSoup exKeywordStep "" "cat").getD 1
        ⟨"", ""⟩).summary = "\n[...] cat" ∧
    SentenceSummariser.summarise exSentTok exWordTok 5 5 ""
        (exGetSoup "u2") (pyLower "cat") = "" ∧
    ((TextInsight.get exSearch exGetSoup exKeywordStep "" "cat").getD 1
        ⟨"", ""⟩).summary ≠
      SentenceSummariser.summarise exSentTok exWordTok 5 5 ""
        (exGetSoup "u2") (pyLower "cat") := by
  refine ⟨?_, ?_, ?_, ?_⟩ <;> decide

/-- C6 amended: for every query and every search capability whose search
yields an ordered list of URLs, the orchestrator returns exactly one
`Summary` per URL, in the same order, the `i`-th entry's `url` equal to the
`i`-th URL; the `i`-th entry's `summary` is the summarisation of the `i`-th
fetched document performed in the summariser instance state carried over from
the preceding documents (`summariseThread`) — it equals the fresh
summarisation of that document alone only for stateless strategies.  Stated
positionally via `map` equalities, which determine every index. -/
theorem orchestrator_one_summary_per_url {σ α : Type}
    (search : String → List String) (get_soup : String → Soup)
    (summarise : σ → Soup → String → σ × α) (st0 : σ) (query : String) :
    (TextInsight.get search get_soup summarise st0 query).length =
      (search (pyLower query)).length ∧
    (TextInsight.get search get_soup summarise st0 query).map (fun r => r.url) =
      search (pyLower query) ∧
    (TextInsight.get search get_soup summarise st0 query).map
        (fun r => r.summary) =
      summariseThread summarise (pyLower query) st0
        ((search (pyLower query)).map get_soup) := by
  have hget : TextInsight.get search get_soup summarise st0 query =
      List.zipWith (fun r url => Summary.mk r url)
        (summariseThread summarise (pyLower query) st0
          ((search (pyLower query)).map get_soup))
        (search (pyLower query)) := by
    unfold TextInsight.get
    rw [textInsight_loop_spec]
    simp
  refine ⟨?_, ?_, ?_⟩
  · rw [hget, List.length_zipWith, summariseThread_length, List.length_map,
      min_self]
  · rw [hget]
    exact zip_thread_map_url get_soup summarise (pyLower query) _ st0
  · rw [hget]
    exact zip_thread_map_summary get_soup summarise (pyLower query) _ st0

end DataScraper

namespace OverlappingLines

/-!
Embedding of `src/OverlappingLines.py`.  Python numbers are `ℚ` (the tests
use ints and floats); the dynamic arguments of the `Line` constructor are a
sum of numbers and non-numbers (the tests pass strings); a raised
`RuntimeError` is `Except.error`; Python `None` falling off the end of
`lines_overlap` is `Option.none`.
-/

/-- A Python value passed to the `Line` constructor: a number
(`numbers.Number`) or a non-number (the tests pass strings). -/
inductive PyVal where
  | num (q : ℚ)
  | str (s : String)

/-- Embeds `isinstance(x, numbers.Number)`. -/
def isNumber : PyVal → Bool
  | .num _ => true
  | .str _ => false

/-- A line from `x1` to `x2`. -/
structure Line where
  x1 : ℚ
  x2 : ℚ
deriving Inhabited

/-- The two `RuntimeError`s of `Line.__init__`. -/
inductive LineError where
  | nonNumbers
  | point

/-- Embeds `Line.__init__`: reject non-numbers, store the endpoints so that `x1`
holds the smaller one, reject equal endpoints as a point. -/
def Line.init : PyVal → PyVal → Except LineError Line
  | .num a, .num b =>
    if a < b then .ok ⟨a, b⟩
    else if b < a then .ok ⟨b, a⟩
    else .error .point
  | _, _ => .error .nonNumbers

/-- Embeds `two_lines_overlap`: `max(x1s) <= min(x2s)`. -/
def two_lines_overlap (l1 l2 : Line) : Bool :=
  decide (max l1.x1 l2.x1 ≤ min l1.x2 l2.x2)

/-- Embeds `Line.__lt__`, which compares the leftmost points; Python `sorted` orders the
list so that the leftmost points are non-decreasing. -/
def lineLe (a b : Line) : Prop := a.x1 ≤ b.x1

instance : DecidableRel lineLe :=
  fun a b => inferInstanceAs (Decidable (a.x1 ≤ b.x1))

instance : IsTotal Line lineLe := ⟨fun a b => le_total a.x1 b.x1⟩

instance : IsTrans Line lineLe := ⟨fun _ _ _ h1 h2 => le_trans h1 h2⟩

/-- The loop of `lines_overlap` over the sorted list: compare each line's
`x2` with the next line's `x1`; at the last index the access to `i + 1`
raises `IndexError`, caught and turned into `False`; with no iterations the
function falls off the end and returns `None`. -/
def overlapLoop : List Line → Option Bool
  | [] => none
  | [_] => some false
  | l1 :: l2 :: rest =>
    if l1.x2 ≥ l2.x1 then some true else overlapLoop (l2 :: rest)

/-- Embeds `lines_overlap`: sort by leftmost point, then run the adjacent-pair
loop. -/
def lines_overlap (lines : List Line) : Option Bool :=
  overlapLoop (List.insertionSort lineLe lines)

theorem getD_eq_get (L : List Line) (n : Nat) (h : n < L.length) :
    L.getD n default = L.get ⟨n, h⟩ := by
  rw [List.getD_eq_getElem?_getD, List.getElem?_eq_getElem h]
  rfl

theorem two_lines_overlap_symm (a b : Line) :
    two_lines_overlap a b = two_lines_overlap b a := by
  unfold two_lines_overlap
  rw [max_comm, min_comm]

theorem overlapLoop_eq_true_iff : ∀ (S : List Line),
    overlapLoop S = some true ↔
      ∃ k, k + 1 < S.length ∧ (S.getD (k + 1) default).x1 ≤ (S.getD k default).x2
  | [] => by
    constructor
    · intro h
      simp [overlapLoop] at h
    · rintro ⟨k, hk, _⟩
      simp at hk
  | [l] => by
    constructor
    · intro h
      simp [overlapLoop] at h
    · rintro ⟨k, hk, _⟩
      simp at hk
  | l1 :: l2 :: rest => by
    by_cases h : l1.x2 ≥ l2.x1
    · constructor
      · intro _
        refine ⟨0, by simp, ?_⟩
        simpa [List.getD_cons_succ, List.getD_cons_zero] using h
      · intro _
        unfold overlapLoop
        rw [if_pos h]
    · have IH := overlapLoop_eq_true_iff (l2 :: rest)
      have hloop : overlapLoop (l1 :: l2 :: rest) = overlapLoop (l2 :: rest) := by
        show (if l1.x2 ≥ l2.x1 then some true else overlapLoop (l2 :: rest)) =
          overlapLoop (l2 :: rest)
        rw [if_neg h]
      rw [hloop, IH]
      constructor
      · rintro ⟨k, hk, hx⟩
        refine ⟨k + 1, by simp at hk ⊢; omega, ?_⟩
        simpa [List.getD_cons_succ] using hx
      · rintro ⟨k, hk, hx⟩
        match k with
        | 0 =>
          exfalso
          apply h
          simpa [List.getD_cons_succ, List.getD_cons_zero] using hx
        | k + 1 =>
          refine ⟨k, by simp at hk ⊢; omega, ?_⟩
          simpa [List.getD_cons_succ] using hx

theorem exists_pair_iff_not_pairwise (L : List Line) :
    (∃ p q, p < q ∧ q < L.length ∧
      two_lines_overlap (L.getD p default) (L.getD q default) = true) ↔
    ¬ List.Pairwise (fun a b => ¬ two_lines_overlap a b = true) L := by
  rw [List.pairwise_iff_get]
  constructor
  · rintro ⟨p, q, hpq, hq, hov⟩ hpw
    have hp : p < L.length := lt_trans hpq hq
    have hnov := hpw ⟨p, hp⟩ ⟨q, hq⟩ (Fin.mk_lt_mk.mpr hpq)
    rw [getD_eq_get L p hp, getD_eq_get L q hq] at hov
    exact hnov hov
  · intro hnot
    by_contra hne
    push_neg at hne
    apply hnot
    intro i j hij
    intro hov
    have hij2 : i.1 < j.1 := hij
    have := hne i.1 j.1 hij2 j.isLt
    rw [getD_eq_get L i.1 i.isLt, getD_eq_get L j.1 j.isLt] at this
    exact this (by simpa using hov)

theorem sorted_getD_x1_le (S : List Line) (hs : List.Sorted lineLe S)
    (p q : Nat) (hpq : p ≤ q) (hq : q < S.length) :
    (S.getD p default).x1 ≤ (S.getD q default).x1 := by
  rcases eq_or_lt_of_le hpq with heq | hlt
  · subst heq
    exact le_refl _
  · rw [getD_eq_get S p (lt_trans hlt hq), getD_eq_get S q hq]
    exact hs.rel_get_of_lt (Fin.mk_lt_mk.mpr hlt)

theorem sorted_adjacent_iff (S : List Line) (hs : List.Sorted lineLe S)
    (hinv : ∀ l ∈ S, l.x1 ≤ l.x2) :
    (∃ k, k + 1 < S.length ∧
      (S.getD (k + 1) default).x1 ≤ (S.getD k default).x2) ↔
    ¬ List.Pairwise (fun a b => ¬ two_lines_overlap a b = true) S := by
  constructor
  · rintro ⟨k, hk, hx⟩
    apply (exists_pair_iff_not_pairwise S).mp
    refine ⟨k, k + 1, by omega, hk, ?_⟩
    have hmem1 : S.getD k default ∈ S := by
      rw [getD_eq_get S k (by omega)]
      exact S.get_mem _ _
    have hmem2 : S.getD (k + 1) default ∈ S := by
      rw [getD_eq_get S (k + 1) hk]
      exact S.get_mem _ _
    have hinv1 := hinv _ hmem1
    have hinv2 := hinv _ hmem2
    have hsorted := sorted_getD_x1_le S hs k (k + 1) (by omega) hk
    unfold two_lines_overlap
    rw [decide_eq_true_iff]
    exact max_le (le_min hinv1 (le_trans hsorted hinv2)) (le_min hx hinv2)
  · intro hnp
    obtain ⟨p, q, hpq, hq, hov⟩ := (exists_pair_iff_not_pairwise S).mpr hnp
    refine ⟨p, by omega, ?_⟩
    unfold two_lines_overlap at hov
    rw [decide_eq_true_iff] at hov
    have h1 : (S.getD q default).x1 ≤ (S.getD p default).x2 :=
      le_trans (le_trans (le_max_right _ _) hov) (min_le_left _ _)
    have h2 : (S.getD (p + 1) default).x1 ≤ (S.getD q default).x1 :=
      sorted_getD_x1_le S hs (p + 1) q (by omega) hq
    exact le_trans h2 h1

/-- C9: every successfully constructed `Line` satisfies `x1 < x2`; the
constructor swaps descending endpoints, raises a `RuntimeError` when either
argument is not a number, and raises a `RuntimeError` when the endpoints are
equal (a degenerate point is never represented as a `Line`). -/
theorem line_invariant :
    (∀ a b l, Line.init a b = .ok l → l.x1 < l.x2) ∧
    (∀ x y : ℚ, y < x → Line.init (.num x) (.num y) = .ok ⟨y, x⟩) ∧
    (∀ a b, (isNumber a = false ∨ isNumber b = false) →
      Line.init a b = .error .nonNumbers) ∧
    (∀ x : ℚ, Line.init (.num x) (.num x) = .error .point) := by
  refine ⟨?_, ?_, ?_, ?_⟩
  · intro a b l h
    match a, b with
    | .num x, .num y =>
      simp only [Line.init] at h
      by_cases hxy : x < y
      · rw [if_pos hxy] at h
        simp only [Except.ok.injEq] at h
        rw [← h]
        exact hxy
      · by_cases hyx : y < x
        · rw [if_neg hxy, if_pos hyx] at h
          simp only [Except.ok.injEq] at h
          rw [← h]
          exact hyx
        · rw [if_neg hxy, if_neg hyx] at h
          simp at h
    | .num _, .str _ => simp [Line.init] at h
    | .str _, .num _ => simp [Line.init] at h
    | .str _, .str _ => simp [Line.init] at h
  · intro x y hyx
    simp only [Line.init]
    rw [if_neg (not_lt.mpr (le_of_lt hyx)), if_pos hyx]
  · intro a b hab
    match a, b with
    | .num x, .num y =>
      rcases hab with h | h <;> simp [isNumber] at h
    | .num _, .str _ => rfl
    | .str _, .num _ => rfl
    | .str _, .str _ => rfl
  · intro x
    simp only [Line.init]
    rw [if_neg (lt_irrefl x), if_neg (lt_irrefl x)]

/-- Witness for C9: all four behaviours at concrete inputs; the last
conjunct applies the invariant part to the swapped line. -/
theorem line_invariant_witness :
    Line.init (.num 7) (.num 5) = .ok ⟨5, 7⟩ ∧
    Line.init (.str "a") (.num 2) = .error .nonNumbers ∧
    Line.init (.num 3) (.num 3) = .error .point ∧
    ((⟨5, 7⟩ : Line).x1 < (⟨5, 7⟩ : Line).x2) := by
  have h1 : Line.init (.num 7) (.num 5) = .ok ⟨5, 7⟩ :=
    line_invariant.2.1 7 5 (by decide)
  exact ⟨h1, line_invariant.2.2.1 (.str "a") (.num 2) (Or.inl rfl),
    line_invariant.2.2.2 3,
    line_invariant.1 (.num 7) (.num 5) ⟨5, 7⟩ h1⟩

/-- C10: `lines_overlap` returns `None` (not `False`) for zero lines and
`False` for exactly one line; for two or more lines it returns `True`
exactly when some pair of the given lines overlaps (equivalently, when an
adjacent pair overlaps after sorting by left endpoint), provided every line
satisfies the constructor invariant `x1 ≤ x2`. -/
theorem lines_overlap_spec :
    lines_overlap [] = none ∧
    (∀ l : Line, lines_overlap [l] = some false) ∧
    (∀ L : List Line, 2 ≤ L.length → (∀ l ∈ L, l.x1 ≤ l.x2) →
      (lines_overlap L = some true ↔
        ∃ p q, p < q ∧ q < L.length ∧
          two_lines_overlap (L.getD p default) (L.getD q default) = true)) := by
  refine ⟨rfl, fun l => rfl, ?_⟩
  intro L hlen hinv
  have hperm : (List.insertionSort lineLe L).Perm L :=
    List.perm_insertionSort lineLe L
  have hsorted : List.Sorted lineLe (List.insertionSort lineLe L) :=
    List.sorted_insertionSort lineLe L
  have hinvS : ∀ l ∈ List.insertionSort lineLe L, l.x1 ≤ l.x2 :=
    fun l hl => hinv l (hperm.mem_iff.mp hl)
  have hsymm : ∀ {x y : Line},
      (¬ two_lines_overlap x y = true) → ¬ two_lines_overlap y x = true := by
    intro x y hxy
    rw [two_lines_overlap_symm]
    exact hxy
  unfold lines_overlap
  rw [overlapLoop_eq_true_iff,
    sorted_adjacent_iff _ hsorted hinvS,
    List.Perm.pairwise_iff hsymm hperm,
    ← exists_pair_iff_not_pairwise L]

/-- Witness for C10 at concrete line lists. -/
theorem lines_overlap_spec_witness :
    lines_overlap [] = none ∧
    lines_overlap [⟨1, 5⟩] = some false ∧
    (lines_overlap [⟨1, 5⟩, ⟨4, 9⟩] = some true ↔
      ∃ p q, p < q ∧ q < ([⟨1, 5⟩, ⟨4, 9⟩] : List Line).length ∧
        two_lines_overlap (([⟨1, 5⟩, ⟨4, 9⟩] : List Line).getD p default)
          (([⟨1, 5⟩, ⟨4, 9⟩] : List Line).getD q default) = true) :=
  ⟨lines_overlap_spec.1, lines_overlap_spec.2.1 ⟨1, 5⟩,
    lines_overlap_spec.2.2 [⟨1, 5⟩, ⟨4, 9⟩] (by decide) (by decide)⟩

end OverlappingLines
